import Mathlib

/-!
Verification of the microbeam runtime (src/index.js): a shallow embedding of
its pattern codec, pattern index, service directory watch handler, outbound
send path, reply dispatch and request-timeout sweep, together with theorems
settling the frozen claims about it.

External libraries used by the runtime (the bloomrun pattern index and the
jsonic pattern codec) are not part of this repository; where a claim depends
on them they are modelled from the specification, and each such definition
says so in its doc comment.
-/

namespace Microbeam

/-- Character strings, handled as explicit character lists so that the
regex-style key decomposition and the codec can be written by recursion. -/
abbrev Str := List Char

/-- A pattern or message: an association list of key/value constraints
(keys and values are strings; messages are flat JS objects). -/
abbrev Pat := List (Str × Str)

/-- A message: key/value fields, possibly more fields than any pattern. -/
abbrev Msg := List (Str × Str)

/-! ### Association-list helpers (JS objects / Maps with string keys) -/

/-- First value bound to key `k`, like `obj[k]` on a JS object. -/
def assocFind {κ β : Type} [DecidableEq κ] (k : κ) : List (κ × β) → Option β
  | [] => none
  | e :: rest => if e.1 = k then some e.2 else assocFind k rest

/-- Key-presence test, like `map.has(k)`. -/
def assocHas {κ β : Type} [DecidableEq κ] (k : κ) (l : List (κ × β)) : Bool :=
  (assocFind k l).isSome

/-- Replace the first binding of `k` in place, or append a new one:
the update semantics of `obj[k] = v` / `map.set(k, v)`. -/
def assocUpd {κ β : Type} [DecidableEq κ] (k : κ) (v : β) : List (κ × β) → List (κ × β)
  | [] => [(k, v)]
  | e :: rest => if e.1 = k then (k, v) :: rest else e :: assocUpd k v rest

/-- Remove every binding of `k`: `delete obj[k]` / `map.delete(k)` on
states whose keys are unique. -/
def assocEraseAll {κ β : Type} [DecidableEq κ] (k : κ) (l : List (κ × β)) : List (κ × β) :=
  l.filter (fun e => !(decide (e.1 = k)))

/-! ### Pattern codec

Modelled from the spec: the `jsonic` parser and serializer (`sonic`,
`sonic.stringify`) are an external dependency, so per §4.1 of the spec the
codec is modelled as a canonicalizing parser: a textual description is
tokenized on commas, each token split at its first colon into a key/value
constraint, and the constraints are brought into key-sorted canonical
order; the serializer prints the constraints back in that order. -/

/-- Split a character list at every occurrence of `c` (the separators are
dropped; `n` separators yield `n+1` pieces). -/
def splitOnChar (c : Char) : Str → List Str
  | [] => [[]]
  | a :: rest =>
    if a = c then [] :: splitOnChar c rest
    else
      match splitOnChar c rest with
      | [] => [[a]]
      | s :: ss => (a :: s) :: ss

/-- Join pieces with the single separator `c` (inverse of `splitOnChar`). -/
def joinWith (c : Char) : List Str → Str
  | [] => []
  | [p] => p
  | p :: ps => p ++ c :: joinWith c ps

/-- Split a token at its first colon into (key, value); a token without a
colon becomes a key with an empty value. -/
def splitFirstColon : Str → Str × Str
  | [] => ([], [])
  | a :: rest =>
    if a = ':' then ([], rest)
    else
      let r := splitFirstColon rest
      (a :: r.1, r.2)

/-- Canonical order on constraints: by key, then by value. -/
def pairLe (a b : Str × Str) : Prop :=
  a.1 < b.1 ∨ (a.1 = b.1 ∧ a.2 ≤ b.2)

instance : DecidableRel pairLe := fun a b =>
  inferInstanceAs (Decidable (a.1 < b.1 ∨ (a.1 = b.1 ∧ a.2 ≤ b.2)))

instance : IsTotal (Str × Str) pairLe where
  total a b := by
    rcases lt_trichotomy a.1 b.1 with h | h | h
    · exact Or.inl (Or.inl h)
    · rcases le_total a.2 b.2 with h2 | h2
      · exact Or.inl (Or.inr ⟨h, h2⟩)
      · exact Or.inr (Or.inr ⟨h.symm, h2⟩)
    · exact Or.inr (Or.inl h)

instance : IsTrans (Str × Str) pairLe where
  trans a b c hab hbc := by
    rcases hab with h1 | ⟨h1, h1v⟩
    · rcases hbc with h2 | ⟨h2, _⟩
      · exact Or.inl (h1.trans h2)
      · exact Or.inl (h2 ▸ h1)
    · rcases hbc with h2 | ⟨h2, h2v⟩
      · exact Or.inl (h1 ▸ h2)
      · exact Or.inr ⟨h1.trans h2, h1v.trans h2v⟩

instance : IsAntisymm (Str × Str) pairLe where
  antisymm a b hab hba := by
    rcases hab with h1 | ⟨h1, h1v⟩
    · rcases hba with h2 | ⟨h2, _⟩
      · exact absurd (h1.trans h2) (lt_irrefl a.1)
      · exact absurd h1 (h2 ▸ lt_irrefl b.1)
    · rcases hba with h2 | ⟨h2, h2v⟩
      · exact absurd h2 (h1 ▸ lt_irrefl a.1)
      · exact Prod.ext h1 (le_antisymm h1v h2v)

/-- Key-sorted canonical ordering of a constraint list. -/
def canonPairs (l : List (Str × Str)) : List (Str × Str) :=
  List.insertionSort pairLe l

/-- Tokenize a textual description: comma-separated, colon-keyed pairs
(empty tokens are dropped). -/
def rawPairs (s : Str) : List (Str × Str) :=
  ((splitOnChar ',' s).filter (fun t => !t.isEmpty)).map splitFirstColon

/-- Modelled from the spec: `sonic(text)` — parse a textual pattern
description into key-sorted canonical form (§4.1). -/
def parseChars (s : Str) : Pat :=
  canonPairs (rawPairs s)

/-- Modelled from the spec: `sonic.stringify(p)` — deterministic canonical
serialization, printing constraints in their canonical order. -/
def stringifyChars (p : Pat) : Str :=
  joinWith ',' (p.map (fun kv => kv.1 ++ ':' :: kv.2))

/-- A constraint whose serialization is unambiguous: nonempty key, no
separator characters in the key, no comma in the value. -/
def CleanPair (e : Str × Str) : Prop :=
  e.1 ≠ [] ∧ ',' ∉ e.1 ∧ ':' ∉ e.1 ∧ ',' ∉ e.2

instance : DecidablePred CleanPair := fun e =>
  inferInstanceAs (Decidable (e.1 ≠ [] ∧ ',' ∉ e.1 ∧ ':' ∉ e.1 ∧ ',' ∉ e.2))

/-- A raw key segment already in canonical serialized form (the shape this
program itself publishes, since `instance.on` stores stringified patterns). -/
def canonicalSeg (k : Str) : Prop :=
  stringifyChars (parseChars k) = k

instance : DecidablePred canonicalSeg := fun k =>
  inferInstanceAs (Decidable (stringifyChars (parseChars k) = k))

/-! ### Pattern index

Modelled from the spec: `bloomrun` (indexing by depth) is an external
dependency; per §4.2 the index is a set of (pattern, payload) entries in
registration order, and `lookup` returns the most specific match —
greatest number of constrained keys, ties broken by earliest
registration. -/

/-- First value bound to field `k` of message `m`. -/
def msgGet (m : Msg) (k : Str) : Option Str :=
  (m.find? (fun e => e.1 == k)).map (fun e => e.2)

/-- Pattern `p` matches message `m` iff every constraint of `p` is present
in `m` with an equal value (extra message fields are allowed). -/
def patMatches (p : Pat) (m : Msg) : Bool :=
  p.all (fun kv => msgGet m kv.1 == some kv.2)

/-- Fold kept by `piLookup`: the best entry so far, replaced only by a
strictly more specific matching entry (depth indexing). -/
def piLookupAux {α : Type} (m : Msg) : List (Pat × α) → Option (Pat × α) → Option (Pat × α)
  | [], best => best
  | e :: rest, best =>
    piLookupAux m rest
      (if patMatches e.1 m then
        match best with
        | none => some e
        | some b => if b.1.length < e.1.length then some e else some b
      else best)

/-- Modelled from the spec: `bloomrun.lookup(msg)` over entries in
registration order. -/
def piLookup {α : Type} (entries : List (Pat × α)) (m : Msg) : Option (Pat × α) :=
  piLookupAux m entries none

/-- The global index `gloBloom` holds patterns as their own payload. -/
def gloLookup (glo : List (Pat × Unit)) (m : Msg) : Option Pat :=
  (piLookup glo m).map (fun e => e.1)

/-- Modelled from the spec: `bloomrun.add(pat)` on the set of entries —
a pattern already present is not duplicated. -/
def gloAdd (p : Pat) (glo : List (Pat × Unit)) : List (Pat × Unit) :=
  if (p, ()) ∈ glo then glo else glo ++ [(p, ())]

/-- Modelled from the spec: `bloomrun.remove(pat)` deletes the pattern's
entry from the index. -/
def gloRemove (p : Pat) (glo : List (Pat × Unit)) : List (Pat × Unit) :=
  glo.filter (fun e => !(decide (e.1 = p)))

/-! ### The watch-key regex `keydx`

`/\/services\/([a-zA-Z0-9{}:\-_\s.,+]+)\/([a-zA-Z0-9{}:\-_\s.,+]+)/`
(unanchored).  Because the character class excludes the slash, greedy
matching with backtracking reduces to: find the first position where the
literal prelude is followed by a nonempty run of class characters, a
slash, and another nonempty run. -/

/-- The character class of the two capture groups of `keydx`. -/
def isClassChar (c : Char) : Bool :=
  c.isAlpha || c.isDigit ||
  c = '{' || c = '}' || c = ':' || c = '-' || c = '_' ||
  c = ' ' || c = '\t' || c = '\n' || c = '\r' ||
  c = '.' || c = ',' || c = '+'

/-- Attempt to match `keydx` at the start of `l`. -/
def keydxTryAt (l : Str) : Option (Str × Str) :=
  match l with
  | '/' :: 's' :: 'e' :: 'r' :: 'v' :: 'i' :: 'c' :: 'e' :: 's' :: '/' :: rest =>
    let pat := rest.takeWhile isClassChar
    if pat.isEmpty then none
    else
      match rest.drop pat.length with
      | '/' :: r2 =>
        let host := r2.takeWhile isClassChar
        if host.isEmpty then none else some (pat, host)
      | _ => none
  | _ => none

/-- `keydx.exec(key)`: scan left to right for the first matching position;
`none` is JS `null`. -/
def keydxExec : Str → Option (Str × Str)
  | [] => none
  | c :: rest =>
    match keydxTryAt (c :: rest) with
    | some r => some r
    | none => keydxExec rest

/-- Decidable form of `canonicalSeg` over a watch key: the key either
fails `keydx` or its pattern segment is canonical. -/
def canonKey (k : Str) : Bool :=
  match keydxExec k with
  | some pr => decide (canonicalSeg pr.1)
  | none => true

/-! ### Runtime state and the watch handler -/

/-- How a pooled socket was created: `connect(address)` (outbound send
path) or `bindSync(address)` (the reply path as written in the source). -/
inductive SockCtor
  | connect
  | bindSync
deriving DecidableEq, Repr

/-- The mutable state of `main`: the service directory (`patterns`, raw
pattern segment ↦ host ↦ address, in insertion order), the global pattern
index (`gloBloom`), the connection pool (`sockets`, address ↦ creation
mode) and the request table (`requests`, request id ↦ expiry). -/
structure MState where
  patterns : List (Str × List (Str × String))
  gloBloom : List (Pat × Unit)
  sockets : List (String × SockCtor)
  requests : List (String × Nat)
deriving DecidableEq, Repr

/-- The empty initial state. -/
def init : MState := ⟨[], [], [], []⟩

/-- Watch actions delivered by the etcd watcher. -/
inductive WAction
  | set
  | delete
  | expire
  | other
deriving DecidableEq, Repr

/-- A directory watch event (`{action, node: {key, value}}`). -/
structure WEvent where
  action : WAction
  key : Str
  value : String
deriving DecidableEq, Repr

/-- The etcd watcher `change` callback.  The returned flag records whether
the callback threw: destructuring `keydx.exec(key)` throws a `TypeError`
when the key does not match (the result is `null`), and
`patterns.delete(pattern)` throws because `patterns` is a plain object
without a `delete` method — in that case every mutation already performed
(the host removal and the index removal) is kept. -/
def watchStep (s : MState) (e : WEvent) : MState × Bool :=
  match keydxExec e.key with
  | none => (s, true)
  | some (pat, host) =>
    match e.action with
    | WAction.delete =>
      match assocFind pat s.patterns with
      | some hosts =>
        if assocHas host hosts then
          let hosts2 := assocEraseAll host hosts
          if hosts2.isEmpty then
            ({ s with patterns := assocUpd pat hosts2 s.patterns,
                      gloBloom := gloRemove (parseChars pat) s.gloBloom }, true)
          else ({ s with patterns := assocUpd pat hosts2 s.patterns }, false)
        else (s, false)
      | none => (s, false)
    | WAction.expire =>
      match assocFind pat s.patterns with
      | some hosts =>
        if assocHas host hosts then
          let hosts2 := assocEraseAll host hosts
          if hosts2.isEmpty then
            ({ s with patterns := assocUpd pat hosts2 s.patterns,
                      gloBloom := gloRemove (parseChars pat) s.gloBloom }, true)
          else ({ s with patterns := assocUpd pat hosts2 s.patterns }, false)
        else (s, false)
      | none => (s, false)
    | WAction.set =>
      match assocFind pat s.patterns with
      | some hosts =>
        if assocHas host hosts then (s, false)
        else ({ s with patterns := assocUpd pat (hosts ++ [(host, e.value)]) s.patterns,
                       gloBloom := gloAdd (parseChars pat) s.gloBloom }, false)
      | none =>
        ({ s with patterns := assocUpd pat [(host, e.value)] s.patterns,
                  gloBloom := gloAdd (parseChars pat) s.gloBloom }, false)
    | WAction.other => (s, false)

/-- Process a sequence of watch events from the empty state, keeping the
state component (mutations already performed are kept when the callback
throws). -/
def runWatch (evs : List WEvent) : MState :=
  evs.foldl (fun s e => (watchStep s e).1) init

/-! ### Outbound send -/

/-- Outcome of `instance.send`: the rejection with "Message pattern is
unroutable" (no global match, empty serialization, or no `patterns`
entry), the rejection with "Message is not routable to any host" (entry
present but no host), or a successful dispatch to the chosen address. -/
inductive SendOutcome
  | unroutablePattern
  | unroutableHost
  | sent (address : String)
deriving DecidableEq, Repr

/-- `instance.send(msg)`: look up the best global pattern, re-serialize
it, fetch the host map under that string, connect (or reuse) a push
socket to the first host's address, and register the pending request with
a 5000 ms expiry. -/
def send (s : MState) (msg : Msg) (requestId : String) (now : Nat) : MState × SendOutcome :=
  match gloLookup s.gloBloom msg with
  | none => (s, SendOutcome.unroutablePattern)
  | some pat =>
    let patternStr := stringifyChars pat
    if patternStr.isEmpty then (s, SendOutcome.unroutablePattern)
    else
      match assocFind patternStr s.patterns with
      | none => (s, SendOutcome.unroutablePattern)
      | some hosts =>
        match hosts with
        | [] => (s, SendOutcome.unroutableHost)
        | (_, address) :: _ =>
          let s2 :=
            if assocHas address s.sockets then s
            else { s with sockets := s.sockets ++ [(address, SockCtor.connect)] }
          ({ s2 with requests := s2.requests ++ [(requestId, now + 5000)] },
           SendOutcome.sent address)

/-! ### Inbound dispatch: the reply branch, and the reply channel -/

/-- A decoded JS value, as far as envelope truthiness is concerned. -/
inductive Val
  | vStr (s : String)
  | vBool (b : Bool)
  | vNum (n : Int)
  | vErr (msg : String)
deriving DecidableEq, Repr

/-- JS truthiness of a value. -/
def truthy : Val → Bool
  | Val.vStr s => !s.isEmpty
  | Val.vBool b => b
  | Val.vNum n => !(decide (n = 0))
  | Val.vErr _ => true

/-- The envelope fields the reply branch reads (`meta.requestId`,
`meta.error`); an absent field is `none`. -/
structure Meta where
  requestId : Option String
  error : Option Val
deriving DecidableEq, Repr

/-- A continuation firing: the observable settlement of a pending request. -/
inductive Settlement
  | resolved (id : String) (msg : Msg)
  | rejectedErr (id : String) (e : Val)
  | timedOut (id : String)
deriving DecidableEq, Repr

/-- The id a settlement fires for. -/
def settleId : Settlement → String
  | Settlement.resolved i _ => i
  | Settlement.rejectedErr i _ => i
  | Settlement.timedOut i => i

/-- The `meta.mode === 'reply'` branch of the message handler: if the
(truthy) request id is present in the table, delete the entry and fire
exactly one continuation — reject with `meta.error` if that is truthy,
otherwise resolve with the message; otherwise fall through silently. -/
def handleReply (requests : List (String × Nat)) (meta : Meta) (msg : Msg) :
    List (String × Nat) × List Settlement :=
  match meta.requestId with
  | none => (requests, [])
  | some rid =>
    if rid.isEmpty then (requests, [])
    else
      match assocFind rid requests with
      | none => (requests, [])
      | some _ =>
        let requests2 := assocEraseAll rid requests
        match meta.error with
        | some e =>
          if truthy e then (requests2, [Settlement.rejectedErr rid e])
          else (requests2, [Settlement.resolved rid msg])
        | none => (requests2, [Settlement.resolved rid msg])

/-- `fireRequestTimeouts` at time `now`: every entry with `expiresOn <
now` is deleted and rejected with a timeout error. -/
def fireRequestTimeouts (now : Nat) (requests : List (String × Nat)) :
    List (String × Nat) × List Settlement :=
  (requests.filter (fun e => !(decide (e.2 < now))),
   (requests.filter (fun e => decide (e.2 < now))).map (fun e => Settlement.timedOut e.1))

/-- The request-table events: a successful `send` registering a pending
request at time `now`, an inbound reply frame, and one run of the
timeout sweep at time `now`. -/
inductive REv
  | sendReq (id : String) (now : Nat)
  | reply (meta : Meta) (msg : Msg)
  | sweep (now : Nat)

/-- One request-table transition; the settlement log only grows. -/
def rStep : List (String × Nat) × List Settlement → REv → List (String × Nat) × List Settlement
  | (tbl, log), REv.sendReq id now => (tbl ++ [(id, now + 5000)], log)
  | (tbl, log), REv.reply meta msg =>
    let r := handleReply tbl meta msg
    (r.1, log ++ r.2)
  | (tbl, log), REv.sweep now =>
    let r := fireRequestTimeouts now tbl
    (r.1, log ++ r.2)

/-- Run a request-table event sequence from the empty table. -/
def rRun (evs : List REv) : List (String × Nat) × List Settlement :=
  evs.foldl rStep ([], [])

/-- The sweep cadence: `fireRequestTimeouts` reschedules itself every
25 ms, so starting at time `start` the next `n` sweeps run at
`start + 25`, `start + 50`, …. -/
def sweepSchedule (start n : Nat) : List REv :=
  (List.range n).map (fun k => REv.sweep (start + 25 * (k + 1)))

/-- The ids of the send events of a sequence, in order. -/
def sendIdsOf : List REv → List String
  | [] => []
  | REv.sendReq id _ :: rest => id :: sendIdsOf rest
  | _ :: rest => sendIdsOf rest

/-- The reply branch of `reply(err, msg)` that acquires the channel back
to the requester: as written, a missing pool entry for `meta.returnUrl`
is filled by creating a push socket and calling `bindSync(returnUrl)` on
it (not `connect`). -/
def replyChannel (sockets : List (String × SockCtor)) (returnUrl : String) :
    List (String × SockCtor) :=
  if assocHas returnUrl sockets then sockets
  else sockets ++ [(returnUrl, SockCtor.bindSync)]

/-! ### Registration (`instance.on`) -/

/-- `_.assign({}, pfx, d)`: keys of `pfx` first (values overridden by `d`
where both bind the key), then the keys only `d` binds, in order. -/
def mergeAssign (pfx d : List (Str × Str)) : List (Str × Str) :=
  (pfx.map (fun e =>
    match assocFind e.1 d with
    | some v => (e.1, v)
    | none => e)) ++ d.filter (fun e => !(assocHas e.1 pfx))

/-- The constraint list `instance.on` registers: the service pfx merged
under the description, then canonicalized. -/
def onPairs (pfx d : List (Str × Str)) : Pat :=
  canonPairs (mergeAssign pfx d)

/-- The canonical serialized pattern string `instance.on` stores. -/
def onPattern (pfx d : List (Str × Str)) : Str :=
  stringifyChars (onPairs pfx d)

/-- The inductive invariant of the watch handler: the `patterns` object
has unique, canonical key segments, and a pattern sits in the global
index exactly when some segment parsing to it has a nonempty host map. -/
def WInv (s : MState) : Prop :=
  (s.patterns.map Prod.fst).Nodup ∧
  (∀ e ∈ s.patterns, canonicalSeg e.1) ∧
  (∀ P : Pat, (P, ()) ∈ s.gloBloom ↔
    ∃ seg hosts, assocFind seg s.patterns = some hosts ∧ hosts ≠ [] ∧ parseChars seg = P)

/-- The request-table run invariant, relative to the send ids `allowed`
seen so far: table ids and settled ids come from `allowed`, table ids are
unique, no id is both pending and settled, and no id is settled twice. -/
def RInv (allowed : List String) (st : List (String × Nat) × List Settlement) : Prop :=
  (∀ i ∈ st.1.map Prod.fst, i ∈ allowed) ∧
  (st.1.map Prod.fst).Nodup ∧
  (∀ i ∈ st.2.map settleId, i ∈ allowed) ∧
  (∀ i ∈ st.1.map Prod.fst, (st.2.map settleId).count i = 0) ∧
  (∀ i : String, (st.2.map settleId).count i ≤ 1)

/-! ## Helper lemmas -/

theorem assocFind_some_mem {κ β : Type} [DecidableEq κ] {k : κ} {v : β} :
    ∀ {l : List (κ × β)}, assocFind k l = some v → (k, v) ∈ l := by
  intro l
  induction l with
  | nil => intro h; simp [assocFind] at h
  | cons e rest ih =>
    intro h
    by_cases he : e.1 = k
    · simp only [assocFind, he, if_pos] at h
      have : e = (k, v) := by
        obtain ⟨e1, e2⟩ := e
        simp at he h
        simp [he, h]
      simp [this]
    · simp only [assocFind, he, if_neg, if_false] at h
      exact List.mem_cons_of_mem _ (ih h)

/-! ## Claim C4: unroutable sends reject immediately with no side effect -/

/-- Claim C4: for every message for which the global index has no matching
pattern, or for which the matched pattern's host map is missing or empty,
`send` rejects with an unroutable error, and on this path the state is
unchanged: no pending request is registered and no connection is created. -/
theorem send_unroutable_no_effect (s : MState) (msg : Msg) (rid : String) (now : Nat)
    (h : gloLookup s.gloBloom msg = none ∨
      ∃ p, gloLookup s.gloBloom msg = some p ∧
        (assocFind (stringifyChars p) s.patterns = none ∨
         assocFind (stringifyChars p) s.patterns = some [])) :
    (send s msg rid now).1 = s ∧
      ((send s msg rid now).2 = SendOutcome.unroutablePattern ∨
       (send s msg rid now).2 = SendOutcome.unroutableHost) := by
  rcases h with h | ⟨p, hp, hf | hf⟩
  · simp [send, h]
  · by_cases he : (stringifyChars p).isEmpty <;> simp [send, hp, hf, he]
  · by_cases he : (stringifyChars p).isEmpty <;> simp [send, hp, hf, he]

/-- Witness for C4: the empty state routes nothing, and `send` leaves it
untouched. -/
theorem send_unroutable_no_effect_witness :
    (gloLookup init.gloBloom [] = none) ∧
      ((send init [] "r1" 0).1 = init ∧
        ((send init [] "r1" 0).2 = SendOutcome.unroutablePattern ∨
         (send init [] "r1" 0).2 = SendOutcome.unroutableHost)) :=
  ⟨rfl, send_unroutable_no_effect init [] "r1" 0 (Or.inl rfl)⟩

/-! ## Claim C7: malformed watch keys -/

/-- Claim C7: a watch event whose key fails the two-segment
`/services/<pattern>/<host>` shape leaves the directory state (host sets
and global index) unchanged — but the callback throws instead of
returning: `keydx.exec` yields `null` and the array destructuring raises
a `TypeError` before the intended `return false` guard can run.  The
returned flag `true` records the throw. -/
theorem watch_malformed_key_throws (s : MState) (a : WAction) (v : String) :
    watchStep s ⟨a, "/services/foo".toList, v⟩ = (s, true) := by
  have hx : keydxExec ("/services/foo".toList) = none := by decide
  simp only [watchStep]
  rw [hx]

/-! ## Claim C8: the reply channel binds instead of connecting -/

/-- Claim C8: on first use of a return address, the reply path creates
its channel with `bindSync(meta.returnUrl)` — it claims the requester's
published inbound address locally rather than connecting outward to it
(the outbound send path, by contrast, uses `connect`). -/
theorem reply_channel_binds_locally (returnUrl : String) :
    replyChannel [] returnUrl = [(returnUrl, SockCtor.bindSync)] := by
  simp [replyChannel, assocHas, assocFind]

/-! ## Claim C9: duplicate registration is a no-op -/

/-- Claim C9: a `set` watch event for a (pattern, host) pair already
present in the directory changes nothing: the host map, the stored
address and the global index are all untouched (the incoming value is
ignored), and the callback returns normally. -/
theorem watch_set_duplicate_noop (s : MState) (e : WEvent) (pat host : Str)
    (hosts : List (Str × String))
    (hx : keydxExec e.key = some (pat, host)) (ha : e.action = WAction.set)
    (hf : assocFind pat s.patterns = some hosts) (hh : assocHas host hosts = true) :
    watchStep s e = (s, false) := by
  simp [watchStep, hx, ha, hf, hh]

/-- Witness for C9: re-announcing host `h1` for pattern `a:1` (even with a
different address) leaves the state unchanged. -/
theorem watch_set_duplicate_noop_witness :
    (keydxExec ("/services/a:1/h1".toList) = some ("a:1".toList, "h1".toList) ∧
      assocFind ("a:1".toList)
        (MState.mk [("a:1".toList, [("h1".toList, "tcp://h1:1")])] [] [] []).patterns =
        some [("h1".toList, "tcp://h1:1")] ∧
      assocHas ("h1".toList) [("h1".toList, "tcp://h1:1")] = true) ∧
    watchStep (MState.mk [("a:1".toList, [("h1".toList, "tcp://h1:1")])] [] [] [])
        ⟨WAction.set, "/services/a:1/h1".toList, "tcp://other:9"⟩ =
      (MState.mk [("a:1".toList, [("h1".toList, "tcp://h1:1")])] [] [] [], false) :=
  ⟨⟨by decide, by decide, by decide⟩,
    watch_set_duplicate_noop (MState.mk [("a:1".toList, [("h1".toList, "tcp://h1:1")])] [] [] [])
      ⟨WAction.set, "/services/a:1/h1".toList, "tcp://other:9"⟩
      ("a:1".toList) ("h1".toList) [("h1".toList, "tcp://h1:1")]
      (by decide) rfl (by decide) (by decide)⟩

/-! ## Claim C3: the reply branch of the dispatcher -/

/-- Counterexample to C3 as stated: an inbound reply whose `error` field
is present but falsy (here `false`) is not rejected with that error — the
guard `if (meta.error)` tests truthiness, so the pending request is
resolved with the message instead. -/
theorem reply_falsy_error_resolves :
    (Meta.mk (some "r1") (some (Val.vBool false))).error.isSome = true ∧
      handleReply [("r1", 7)] (Meta.mk (some "r1") (some (Val.vBool false))) [] =
        ([], [Settlement.resolved "r1" []]) :=
  ⟨rfl, by decide⟩

/-- Claim C3 (amended): for an inbound reply frame, if the envelope's
request id is present in the request table (whose ids, produced by
`genId`, are nonempty), the pending request is settled exactly once —
rejected with the envelope's error when that field is present and truthy,
resolved with the message otherwise — and the entry is removed at that
moment; if the id is absent from the table the frame is dropped with no
change to any state. -/
theorem reply_branch_settles (tbl : List (String × Nat)) (meta : Meta) (msg : Msg)
    (hwf : ∀ e ∈ tbl, e.1 ≠ "") :
    (∀ rid, meta.requestId = some rid → (assocFind rid tbl).isSome →
      handleReply tbl meta msg =
        (assocEraseAll rid tbl,
         [match meta.error with
          | some e =>
            if truthy e then Settlement.rejectedErr rid e else Settlement.resolved rid msg
          | none => Settlement.resolved rid msg])) ∧
    ((∀ rid, meta.requestId = some rid → assocFind rid tbl = none) →
      handleReply tbl meta msg = (tbl, [])) := by
  constructor
  · intro rid hrid hsome
    obtain ⟨v, hv⟩ := Option.isSome_iff_exists.mp hsome
    have hne : rid ≠ "" := hwf _ (assocFind_some_mem hv)
    have hempty : rid.isEmpty = false := by
      cases h : rid.isEmpty
      · rfl
      · exact absurd ((String.isEmpty_iff _).mp h) hne
    cases he : meta.error with
    | none => simp [handleReply, hrid, hempty, hv, he]
    | some e =>
      by_cases ht : truthy e <;> simp [handleReply, hrid, hempty, hv, he, ht]
  · intro habs
    cases hre : meta.requestId with
    | none => simp [handleReply, hre]
    | some rid =>
      by_cases he : rid.isEmpty <;> simp [handleReply, hre, he, habs rid hre]

/-- Witness for C3 (amended): a reply carrying no error resolves the one
pending request and empties the table; an unknown id is dropped. -/
theorem reply_branch_settles_witness :
    (∀ e ∈ [("r1", (7 : Nat))], e.1 ≠ "") ∧
      handleReply [("r1", 7)] (Meta.mk (some "r1") none) [] =
        (assocEraseAll "r1" [("r1", 7)], [Settlement.resolved "r1" []]) :=
  ⟨by decide,
    (reply_branch_settles [("r1", 7)] (Meta.mk (some "r1") none) [] (by decide)).1
      "r1" rfl (by decide)⟩

/-! ## Claim C1, counterexample part -/

/-- Counterexample to C1 as stated: two raw key segments that denote the
same constraints (`b:2,a:1` and `a:1,b:2`) keep separate host maps, while
the global index stores the one parsed pattern.  Deleting the only host
announced under the first segment removes the pattern from the global
index (and the callback then throws at `patterns.delete`), although a
live host for the pattern is still recorded under the second segment —
afterwards no message is matched, so presence in the index is not
equivalent to having at least one live host. -/
theorem watch_index_invariant_cex :
    assocFind ("a:1,b:2".toList)
        (runWatch
          [⟨WAction.set, "/services/b:2,a:1/h1".toList, "tcp://h1:1"⟩,
           ⟨WAction.set, "/services/a:1,b:2/h2".toList, "tcp://h2:1"⟩,
           ⟨WAction.delete, "/services/b:2,a:1/h1".toList, ""⟩]).patterns =
      some [("h2".toList, "tcp://h2:1")] ∧
    (runWatch
        [⟨WAction.set, "/services/b:2,a:1/h1".toList, "tcp://h1:1"⟩,
         ⟨WAction.set, "/services/a:1,b:2/h2".toList, "tcp://h2:1"⟩,
         ⟨WAction.delete, "/services/b:2,a:1/h1".toList, ""⟩]).gloBloom = [] ∧
    gloLookup
        (runWatch
          [⟨WAction.set, "/services/b:2,a:1/h1".toList, "tcp://h1:1"⟩,
           ⟨WAction.set, "/services/a:1,b:2/h2".toList, "tcp://h2:1"⟩,
           ⟨WAction.delete, "/services/b:2,a:1/h1".toList, ""⟩]).gloBloom
        [("a".toList, "1".toList), ("b".toList, "2".toList)] = none := by
  refine ⟨by decide, by decide, by decide⟩

/-! ## Claim C5: lookup returns the most specific match -/

theorem piLookupAux_split {α : Type} (m : Msg) :
    ∀ (l : List (Pat × α)) (b r : Pat × α),
      piLookupAux m l (some b) = some r →
      (r = b ∧ ∀ e ∈ l, patMatches e.1 m = true → e.1.length ≤ b.1.length) ∨
      (∃ l1 l2, l = l1 ++ r :: l2 ∧ patMatches r.1 m = true ∧
        b.1.length < r.1.length ∧
        (∀ e ∈ l1, patMatches e.1 m = true → e.1.length < r.1.length) ∧
        (∀ e ∈ l2, patMatches e.1 m = true → e.1.length ≤ r.1.length)) := by
  intro l
  induction l with
  | nil =>
    intro b r h
    simp only [piLookupAux, Option.some.injEq] at h
    exact Or.inl ⟨h.symm, by simp⟩
  | cons e rest ih =>
    intro b r h
    simp only [piLookupAux] at h
    by_cases hm : patMatches e.1 m = true
    · rw [if_pos hm] at h
      by_cases hlt : b.1.length < e.1.length
      · rw [if_pos hlt] at h
        rcases ih e r h with ⟨hre, hbound⟩ | ⟨l1, l2, hsp, hmr, hlt2, h1, h2⟩
        · refine Or.inr ⟨[], rest, by simp [hre], by rw [hre]; exact hm, ?_, by simp, ?_⟩
          · rw [hre]; exact hlt
          · intro x hx hmx
            have := hbound x hx hmx
            rw [hre]; exact this
        · refine Or.inr ⟨e :: l1, l2, by simp [hsp], hmr, hlt.trans hlt2, ?_, h2⟩
          intro x hx hmx
          rcases List.mem_cons.mp hx with hx | hx
          · rw [hx]; exact hlt2
          · exact h1 x hx hmx
      · rw [if_neg hlt] at h
        rcases ih b r h with ⟨hre, hbound⟩ | ⟨l1, l2, hsp, hmr, hlt2, h1, h2⟩
        · refine Or.inl ⟨hre, ?_⟩
          intro x hx hmx
          rcases List.mem_cons.mp hx with hx | hx
          · rw [hx]; exact Nat.le_of_not_lt hlt
          · exact hbound x hx hmx
        · refine Or.inr ⟨e :: l1, l2, by simp [hsp], hmr, hlt2, ?_, h2⟩
          intro x hx hmx
          rcases List.mem_cons.mp hx with hx | hx
          · rw [hx]
            exact Nat.lt_of_le_of_lt (Nat.le_of_not_lt hlt) hlt2
          · exact h1 x hx hmx
    · rw [if_neg hm] at h
      rcases ih b r h with ⟨hre, hbound⟩ | ⟨l1, l2, hsp, hmr, hlt2, h1, h2⟩
      · refine Or.inl ⟨hre, ?_⟩
        intro x hx hmx
        rcases List.mem_cons.mp hx with hx | hx
        · exact absurd (hx ▸ hmx) hm
        · exact hbound x hx hmx
      · refine Or.inr ⟨e :: l1, l2, by simp [hsp], hmr, hlt2, ?_, h2⟩
        intro x hx hmx
        rcases List.mem_cons.mp hx with hx | hx
        · exact absurd (hx ▸ hmx) hm
        · exact h1 x hx hmx

theorem piLookup_split {α : Type} (m : Msg) :
    ∀ (entries : List (Pat × α)) (r : Pat × α),
      piLookup entries m = some r →
      ∃ l1 l2, entries = l1 ++ r :: l2 ∧ patMatches r.1 m = true ∧
        (∀ e ∈ l1, patMatches e.1 m = true → e.1.length < r.1.length) ∧
        (∀ e ∈ l2, patMatches e.1 m = true → e.1.length ≤ r.1.length) := by
  intro entries
  induction entries with
  | nil => intro r h; simp [piLookup, piLookupAux] at h
  | cons e rest ih =>
    intro r h
    simp only [piLookup, piLookupAux] at h
    by_cases hm : patMatches e.1 m = true
    · rw [if_pos hm] at h
      rcases piLookupAux_split m rest e r h with ⟨hre, hbound⟩ | ⟨l1, l2, hsp, hmr, hlt2, h1, h2⟩
      · refine ⟨[], rest, by simp [hre], by rw [hre]; exact hm, by simp, ?_⟩
        intro x hx hmx
        have := hbound x hx hmx
        rw [hre]; exact this
      · refine ⟨e :: l1, l2, by simp [hsp], hmr, ?_, h2⟩
        intro x hx hmx
        rcases List.mem_cons.mp hx with hx | hx
        · rw [hx]; exact hlt2
        · exact h1 x hx hmx
    · rw [if_neg hm] at h
      obtain ⟨l1, l2, hsp, hmr, h1, h2⟩ := ih r h
      refine ⟨e :: l1, l2, by simp [hsp], hmr, ?_, h2⟩
      intro x hx hmx
      rcases List.mem_cons.mp hx with hx | hx
      · exact absurd (hx ▸ hmx) hm
      · exact h1 x hx hmx

/-- A successful global lookup returns a pattern stored in the index,
and it matches the message. -/
theorem gloLookup_mem {glo : List (Pat × Unit)} {m : Msg} {p : Pat}
    (h : gloLookup glo m = some p) : (p, ()) ∈ glo ∧ patMatches p m = true := by
  rw [gloLookup, Option.map_eq_some'] at h
  obtain ⟨e, he, hep⟩ := h
  obtain ⟨l1, l2, hsp, hmr, -, -⟩ := piLookup_split m glo e he
  constructor
  · have : e = (p, ()) := by
      obtain ⟨e1, e2⟩ := e
      simp at hep
      simp [hep]
    rw [← this, hsp]
    simp
  · rw [← hep]; exact hmr

/-- Claim C5: a successful `piLookup` returns a registered pattern all of
whose key/value constraints occur verbatim in the message, which is most
specific — no matching entry constrains more keys, every earlier matching
entry constrains strictly fewer — and, concretely, with `P1 = a:1` and
`P2 = a:1,b:2` registered in that order, the message `a:1,b:2,c:3`
matches `P2`, not `P1`. -/
theorem piLookup_most_specific :
    (∀ (α : Type) (entries : List (Pat × α)) (m : Msg) (p : Pat) (a : α),
      piLookup entries m = some (p, a) →
        (∀ kv ∈ p, msgGet m kv.1 = some kv.2) ∧
        ∃ l1 l2, entries = l1 ++ (p, a) :: l2 ∧
          (∀ e ∈ l1, patMatches e.1 m = true → e.1.length < p.length) ∧
          (∀ e ∈ l2, patMatches e.1 m = true → e.1.length ≤ p.length)) ∧
    piLookup
        [([("a".toList, "1".toList)], 1),
         ([("a".toList, "1".toList), ("b".toList, "2".toList)], 2)]
        [("a".toList, "1".toList), ("b".toList, "2".toList), ("c".toList, "3".toList)] =
      some ([("a".toList, "1".toList), ("b".toList, "2".toList)], 2) := by
  constructor
  · intro α entries m p a h
    obtain ⟨l1, l2, hsp, hmr, h1, h2⟩ := piLookup_split m entries (p, a) h
    refine ⟨?_, l1, l2, hsp, h1, h2⟩
    intro kv hkv
    have := (List.all_eq_true.mp hmr) kv hkv
    exact eq_of_beq this
  · decide

/-- Witness for C5: the general clause applied to the two-pattern index of
the claim's concrete example. -/
theorem piLookup_most_specific_witness :
    (piLookup
        [([("a".toList, "1".toList)], 1),
         ([("a".toList, "1".toList), ("b".toList, "2".toList)], 2)]
        [("a".toList, "1".toList), ("b".toList, "2".toList), ("c".toList, "3".toList)] =
      some ([("a".toList, "1".toList), ("b".toList, "2".toList)], 2)) ∧
    ((∀ kv ∈ [("a".toList, "1".toList), ("b".toList, "2".toList)],
        msgGet [("a".toList, "1".toList), ("b".toList, "2".toList), ("c".toList, "3".toList)]
          kv.1 = some kv.2) ∧
      ∃ l1 l2,
        [([("a".toList, "1".toList)], 1),
         ([("a".toList, "1".toList), ("b".toList, "2".toList)], 2)] =
          l1 ++ ([("a".toList, "1".toList), ("b".toList, "2".toList)], 2) :: l2 ∧
        (∀ e ∈ l1,
          patMatches e.1
            [("a".toList, "1".toList), ("b".toList, "2".toList), ("c".toList, "3".toList)] =
            true →
          e.1.length < ([("a".toList, "1".toList), ("b".toList, "2".toList)] : Pat).length) ∧
        (∀ e ∈ l2,
          patMatches e.1
            [("a".toList, "1".toList), ("b".toList, "2".toList), ("c".toList, "3".toList)] =
            true →
          e.1.length ≤ ([("a".toList, "1".toList), ("b".toList, "2".toList)] : Pat).length)) :=
  ⟨by decide,
    piLookup_most_specific.1 Nat
      [([("a".toList, "1".toList)], 1),
       ([("a".toList, "1".toList), ("b".toList, "2".toList)], 2)]
      [("a".toList, "1".toList), ("b".toList, "2".toList), ("c".toList, "3".toList)]
      [("a".toList, "1".toList), ("b".toList, "2".toList)] 2 (by decide)⟩

/-! ## Codec inversion lemmas (for C6 and C10) -/

theorem splitOnChar_no_sep {c : Char} :
    ∀ {p : Str}, c ∉ p → splitOnChar c p = [p] := by
  intro p
  induction p with
  | nil => intro _; rfl
  | cons a rest ih =>
    intro h
    have hac : ¬ a = c := fun hh => h (hh ▸ List.mem_cons_self a rest)
    have hr : splitOnChar c rest = [rest] := ih (fun hm => h (List.mem_cons_of_mem a hm))
    simp [splitOnChar, hac, hr]

theorem splitOnChar_sep_append {c : Char} :
    ∀ (p t : Str), c ∉ p → splitOnChar c (p ++ c :: t) = p :: splitOnChar c t := by
  intro p
  induction p with
  | nil =>
    intro t _
    simp [splitOnChar]
  | cons a rest ih =>
    intro t h
    have hac : ¬ a = c := fun hh => h (hh ▸ List.mem_cons_self a rest)
    have hr := ih t (fun hm => h (List.mem_cons_of_mem a hm))
    simp [splitOnChar, hac, hr]

theorem splitOnChar_joinWith {c : Char} :
    ∀ (ts : List Str), ts ≠ [] → (∀ t ∈ ts, c ∉ t) →
      splitOnChar c (joinWith c ts) = ts := by
  intro ts
  induction ts with
  | nil => intro h _; exact absurd rfl h
  | cons p ps ih =>
    intro _ hall
    cases ps with
    | nil =>
      show splitOnChar c (joinWith c [p]) = [p]
      rw [joinWith]
      exact splitOnChar_no_sep (hall p (by simp))
    | cons q qs =>
      have hjw : joinWith c (p :: q :: qs) = p ++ c :: joinWith c (q :: qs) := rfl
      rw [hjw, splitOnChar_sep_append p _ (hall p (by simp)),
          ih (by simp) (fun t ht => hall t (List.mem_cons_of_mem _ ht))]

theorem splitFirstColon_append :
    ∀ (k v : Str), ':' ∉ k → splitFirstColon (k ++ ':' :: v) = (k, v) := by
  intro k
  induction k with
  | nil => intro v _; simp [splitFirstColon]
  | cons a rest ih =>
    intro v h
    have hac : ¬ a = ':' := fun hh => h (hh ▸ List.mem_cons_self a rest)
    simp [splitFirstColon, hac, ih v (fun hm => h (List.mem_cons_of_mem a hm))]

theorem canonPairs_sorted (l : List (Str × Str)) : List.Sorted pairLe (canonPairs l) :=
  List.sorted_insertionSort pairLe l

theorem canonPairs_of_sorted {l : List (Str × Str)} (h : List.Sorted pairLe l) :
    canonPairs l = l :=
  List.eq_of_perm_of_sorted (List.perm_insertionSort pairLe l) (canonPairs_sorted l) h

theorem canonPairs_perm_congr {l1 l2 : List (Str × Str)} (h : l1.Perm l2) :
    canonPairs l1 = canonPairs l2 :=
  List.eq_of_perm_of_sorted
    ((List.perm_insertionSort pairLe l1).trans
      (h.trans (List.perm_insertionSort pairLe l2).symm))
    (canonPairs_sorted l1) (canonPairs_sorted l2)

/-- Serialization round-trips on key-sorted patterns with clean tokens:
parsing the canonical string recovers the pattern. -/
theorem parse_stringify :
    ∀ (p : Pat), List.Sorted pairLe p → (∀ e ∈ p, CleanPair e) →
      parseChars (stringifyChars p) = p := by
  intro p hs hc
  cases p with
  | nil => rfl
  | cons e0 rest =>
    have htok : ∀ t ∈ (e0 :: rest).map (fun kv => kv.1 ++ ':' :: kv.2), ',' ∉ t := by
      intro t ht hmem
      obtain ⟨kv, hkv, rfl⟩ := List.mem_map.mp ht
      obtain ⟨-, hk2, -, hk4⟩ := hc kv hkv
      rcases List.mem_append.mp hmem with hm | hm
      · exact hk2 hm
      · rcases List.mem_cons.mp hm with hm | hm
        · exact absurd hm (by decide)
        · exact hk4 hm
    have htokne : (e0 :: rest).map (fun kv => kv.1 ++ ':' :: kv.2) ≠ [] := by simp
    show canonPairs (rawPairs (joinWith ',' ((e0 :: rest).map (fun kv => kv.1 ++ ':' :: kv.2)))) =
      e0 :: rest
    rw [rawPairs, splitOnChar_joinWith _ htokne htok]
    have hfil : ((e0 :: rest).map (fun kv => kv.1 ++ ':' :: kv.2)).filter (fun t => !t.isEmpty) =
        (e0 :: rest).map (fun kv => kv.1 ++ ':' :: kv.2) := by
      apply List.filter_eq_self.mpr
      intro t ht
      obtain ⟨kv, hkv, rfl⟩ := List.mem_map.mp ht
      cases hkv1 : kv.1 with
      | nil => simp [hkv1]
      | cons a as => simp [hkv1]
    rw [hfil, List.map_map]
    have hmapid : (e0 :: rest).map (splitFirstColon ∘ fun kv => kv.1 ++ ':' :: kv.2) =
        e0 :: rest := by
      have hcg : ∀ e ∈ e0 :: rest,
          (splitFirstColon ∘ fun kv => kv.1 ++ ':' :: kv.2) e = id e := by
        intro e he
        obtain ⟨-, -, hk3, -⟩ := hc e he
        simp [Function.comp, splitFirstColon_append e.1 e.2 hk3]
      rw [List.map_congr_left hcg, List.map_id]
    rw [hmapid]
    exact canonPairs_of_sorted hs

/-- `assocFind` is invariant under permutation of a duplicate-free
association list. -/
theorem assocFind_perm {κ β : Type} [DecidableEq κ] {k : κ} :
    ∀ {l1 l2 : List (κ × β)}, l1.Perm l2 → (l1.map Prod.fst).Nodup →
      assocFind k l1 = assocFind k l2 := by
  intro l1 l2 h
  induction h with
  | nil => intro _; rfl
  | cons x h ih =>
    intro hnd
    by_cases hx : x.1 = k
    · simp [assocFind, hx]
    · rw [List.map_cons] at hnd
      simp only [assocFind, hx, if_false]
      exact ih hnd.of_cons
  | swap x y t =>
    intro hnd
    rw [List.map_cons, List.map_cons] at hnd
    have hxy : y.1 ≠ x.1 := by
      have := List.Nodup.not_mem hnd
      intro hh
      exact this (hh ▸ List.mem_cons_self _ _)
    by_cases hy : y.1 = k
    · have hx : ¬ x.1 = k := fun hh => hxy (hy.trans hh.symm)
      simp [assocFind, hy, hx]
    · by_cases hx : x.1 = k
      · simp [assocFind, hy, hx]
      · simp [assocFind, hy, hx]
  | trans h1 _ ih1 ih2 =>
    intro hnd
    exact (ih1 hnd).trans (ih2 (((h1.map Prod.fst).nodup_iff).mp hnd))

/-- `_.assign({}, pfx, ·)` sends permuted (duplicate-free) descriptions to
permuted merge results. -/
theorem mergeAssign_perm {pfx d1 d2 : List (Str × Str)} (h : d1.Perm d2)
    (hnd : (d1.map Prod.fst).Nodup) :
    (mergeAssign pfx d1).Perm (mergeAssign pfx d2) := by
  unfold mergeAssign
  have h1 : pfx.map (fun e =>
        match assocFind e.1 d1 with
        | some v => (e.1, v)
        | none => e) =
      pfx.map (fun e =>
        match assocFind e.1 d2 with
        | some v => (e.1, v)
        | none => e) := by
    apply List.map_congr_left
    intro e _
    rw [assocFind_perm h hnd]
  rw [h1]
  exact List.Perm.append_left _ (h.filter _)

/-! ## Claim C6: canonical normalization and serialized equality -/

/-- Claim C6: registration normalizes differently-ordered descriptions of
the same constraints to identical patterns: for structured descriptions
that are permutations of each other (with unique keys), `instance.on`
produces the same canonical constraint list and the same serialized
string; likewise two textual descriptions whose token lists are
permutations parse identically.  Serialization round-trips on every
registration-produced pattern, and hence two such patterns are equal if
and only if their serialized forms are equal. -/
theorem on_normalizes :
    (∀ pfx d1 d2 : List (Str × Str), d1.Perm d2 → (d1.map Prod.fst).Nodup →
      onPairs pfx d1 = onPairs pfx d2 ∧ onPattern pfx d1 = onPattern pfx d2) ∧
    (∀ s1 s2 : Str, (rawPairs s1).Perm (rawPairs s2) → parseChars s1 = parseChars s2) ∧
    (∀ pfx d : List (Str × Str), (∀ e ∈ mergeAssign pfx d, CleanPair e) →
      parseChars (onPattern pfx d) = onPairs pfx d) ∧
    (∀ q1 q2 : Pat, parseChars (stringifyChars q1) = q1 →
      parseChars (stringifyChars q2) = q2 →
      (q1 = q2 ↔ stringifyChars q1 = stringifyChars q2)) := by
  refine ⟨?_, ?_, ?_, ?_⟩
  · intro pfx d1 d2 hperm hnd
    have heq : onPairs pfx d1 = onPairs pfx d2 :=
      canonPairs_perm_congr (mergeAssign_perm hperm hnd)
    exact ⟨heq, by rw [onPattern, onPattern, heq]⟩
  · intro s1 s2 h
    show canonPairs (rawPairs s1) = canonPairs (rawPairs s2)
    exact canonPairs_perm_congr h
  · intro pfx d hc
    have hclean2 : ∀ e ∈ onPairs pfx d, CleanPair e := by
      intro e he
      exact hc e ((List.mem_insertionSort pairLe).mp he)
    exact parse_stringify _ (canonPairs_sorted _) hclean2
  · intro q1 q2 h1 h2
    constructor
    · intro h; rw [h]
    · intro h; rw [← h1, ← h2, h]

/-- Witness for C6: `b:2,a:1` and `a:1,b:2` as structured descriptions
normalize to the same pattern and the same canonical string. -/
theorem on_normalizes_witness :
    (([(("b".toList : Str), ("2".toList : Str)), ("a".toList, "1".toList)] : List (Str × Str)).Perm
        [("a".toList, "1".toList), ("b".toList, "2".toList)] ∧
      (([(("b".toList : Str), ("2".toList : Str)), ("a".toList, "1".toList)] :
          List (Str × Str)).map Prod.fst).Nodup) ∧
    (onPairs [] [(("b".toList : Str), ("2".toList : Str)), ("a".toList, "1".toList)] =
        onPairs [] [("a".toList, "1".toList), ("b".toList, "2".toList)] ∧
      onPattern [] [(("b".toList : Str), ("2".toList : Str)), ("a".toList, "1".toList)] =
        onPattern [] [("a".toList, "1".toList), ("b".toList, "2".toList)]) :=
  ⟨⟨by decide, by decide⟩,
    on_normalizes.1 [] [(("b".toList : Str), ("2".toList : Str)), ("a".toList, "1".toList)]
      [("a".toList, "1".toList), ("b".toList, "2".toList)] (by decide) (by decide)⟩

/-! ## Claim C10: routing requires the raw key to round-trip -/

/-- Claim C10: the directory keys host maps by the raw watched segment
`pat`, while `send` looks the host map up under the re-stringified form
of the globally matched pattern.  Hence, in a directory learned from a
`set` event for `pat`, a message matched to that pattern is routable only
when `sonic.stringify(sonic(pat))` equals `pat`: when the round-trip
fails, `send` rejects as unroutable even though a live host is recorded
for the pattern. -/
theorem send_requires_roundtrip (key pat host : Str) (v : String) (msg : Msg)
    (rid : String) (now : Nat)
    (hx : keydxExec key = some (pat, host))
    (hrt : stringifyChars (parseChars pat) ≠ pat)
    (hm : gloLookup (runWatch [⟨WAction.set, key, v⟩]).gloBloom msg = some (parseChars pat)) :
    send (runWatch [⟨WAction.set, key, v⟩]) msg rid now =
      (runWatch [⟨WAction.set, key, v⟩], SendOutcome.unroutablePattern) ∧
    assocFind pat (runWatch [⟨WAction.set, key, v⟩]).patterns = some [(host, v)] := by
  have hrun : runWatch [⟨WAction.set, key, v⟩] =
      ⟨[(pat, [(host, v)])], [(parseChars pat, ())], [], []⟩ := by
    simp [runWatch, init, watchStep, hx, assocFind, assocUpd, gloAdd]
  rw [hrun] at hm ⊢
  constructor
  · simp only [send, hm]
    by_cases he : (stringifyChars (parseChars pat)).isEmpty
    · simp [he]
    · have hne : ¬ (pat = stringifyChars (parseChars pat)) := fun hh => hrt hh.symm
      simp [he, assocFind, hne]
  · simp [assocFind]

/-- Witness for C10: the raw segment `b:2,a:1` parses to the canonical
pattern `a:1,b:2`, whose re-stringified form misses the host table entry,
so the matching message is unroutable despite the live host `h1`. -/
theorem send_requires_roundtrip_witness :
    (keydxExec ("/services/b:2,a:1/h1".toList) =
        some ("b:2,a:1".toList, "h1".toList) ∧
      stringifyChars (parseChars ("b:2,a:1".toList)) ≠ "b:2,a:1".toList ∧
      gloLookup
          (runWatch [⟨WAction.set, "/services/b:2,a:1/h1".toList, "tcp://h1:1"⟩]).gloBloom
          [("a".toList, "1".toList), ("b".toList, "2".toList)] =
        some (parseChars ("b:2,a:1".toList))) ∧
    (send (runWatch [⟨WAction.set, "/services/b:2,a:1/h1".toList, "tcp://h1:1"⟩])
        [("a".toList, "1".toList), ("b".toList, "2".toList)] "r1" 0 =
      (runWatch [⟨WAction.set, "/services/b:2,a:1/h1".toList, "tcp://h1:1"⟩],
        SendOutcome.unroutablePattern) ∧
    assocFind ("b:2,a:1".toList)
        (runWatch [⟨WAction.set, "/services/b:2,a:1/h1".toList, "tcp://h1:1"⟩]).patterns =
      some [("h1".toList, "tcp://h1:1")]) :=
  ⟨⟨by decide, by decide, by decide⟩,
    send_requires_roundtrip ("/services/b:2,a:1/h1".toList) ("b:2,a:1".toList)
      ("h1".toList) "tcp://h1:1"
      [("a".toList, "1".toList), ("b".toList, "2".toList)] "r1" 0
      (by decide) (by decide) (by decide)⟩

/-! ## Association-list update lemmas (for C1) -/

theorem assocFind_assocUpd_self {κ β : Type} [DecidableEq κ] (k : κ) (v : β) :
    ∀ (l : List (κ × β)), assocFind k (assocUpd k v l) = some v := by
  intro l
  induction l with
  | nil => simp [assocUpd, assocFind]
  | cons e rest ih =>
    by_cases he : e.1 = k
    · simp [assocUpd, he, assocFind]
    · simp [assocUpd, he, assocFind, ih]

theorem assocFind_assocUpd_ne {κ β : Type} [DecidableEq κ] {k k2 : κ} (h : k2 ≠ k) (v : β) :
    ∀ (l : List (κ × β)), assocFind k2 (assocUpd k v l) = assocFind k2 l := by
  intro l
  induction l with
  | nil =>
    have hk2 : ¬ k = k2 := fun hh => h hh.symm
    simp [assocUpd, assocFind, hk2]
  | cons e rest ih =>
    by_cases he : e.1 = k
    · have he2 : ¬ e.1 = k2 := fun hh => h (hh.symm.trans he)
      have hk2 : ¬ k = k2 := fun hh => h hh.symm
      simp [assocUpd, he, assocFind, hk2, he2]
    · by_cases he2 : e.1 = k2
      · simp [assocUpd, he, assocFind, he2, h]
      · simp [assocUpd, he, assocFind, he2, ih]

theorem mem_assocUpd {κ β : Type} [DecidableEq κ] (k : κ) (v : β) :
    ∀ (l : List (κ × β)) (e2 : κ × β), e2 ∈ assocUpd k v l → e2 = (k, v) ∨ e2 ∈ l := by
  intro l
  induction l with
  | nil => intro e2 h; simp [assocUpd] at h; exact Or.inl h
  | cons e rest ih =>
    intro e2 h
    by_cases he : e.1 = k
    · rw [assocUpd, if_pos he] at h
      rcases List.mem_cons.mp h with h | h
      · exact Or.inl h
      · exact Or.inr (List.mem_cons_of_mem _ h)
    · rw [assocUpd, if_neg he] at h
      rcases List.mem_cons.mp h with h | h
      · exact Or.inr (h ▸ List.mem_cons_self _ _)
      · rcases ih e2 h with h | h
        · exact Or.inl h
        · exact Or.inr (List.mem_cons_of_mem _ h)

theorem keys_assocUpd {κ β : Type} [DecidableEq κ] (k : κ) (v : β) :
    ∀ (l : List (κ × β)) (k2 : κ),
      k2 ∈ (assocUpd k v l).map Prod.fst ↔ k2 = k ∨ k2 ∈ l.map Prod.fst := by
  intro l
  induction l with
  | nil => intro k2; simp [assocUpd]
  | cons e rest ih =>
    intro k2
    by_cases he : e.1 = k
    · rw [assocUpd, if_pos he]
      simp [he]
    · rw [assocUpd, if_neg he]
      simp only [List.map_cons, List.mem_cons, ih]
      constructor
      · rintro (h | h | h)
        · exact Or.inr (Or.inl h)
        · exact Or.inl h
        · exact Or.inr (Or.inr h)
      · rintro (h | h | h)
        · exact Or.inr (Or.inl h)
        · exact Or.inl h
        · exact Or.inr (Or.inr h)

theorem nodup_assocUpd {κ β : Type} [DecidableEq κ] {k : κ} {v : β} :
    ∀ {l : List (κ × β)}, (l.map Prod.fst).Nodup → ((assocUpd k v l).map Prod.fst).Nodup := by
  intro l
  induction l with
  | nil => intro _; simp [assocUpd]
  | cons e rest ih =>
    intro hnd
    rw [List.map_cons] at hnd
    by_cases he : e.1 = k
    · rw [assocUpd, if_pos he, List.map_cons]
      exact List.Nodup.cons (fun hm => (List.Nodup.not_mem hnd) (he ▸ hm)) hnd.of_cons
    · rw [assocUpd, if_neg he, List.map_cons]
      refine List.Nodup.cons ?_ (ih hnd.of_cons)
      intro hm
      rcases (keys_assocUpd k v rest e.1).mp hm with h | h
      · exact he h
      · exact (List.Nodup.not_mem hnd) h

theorem mem_gloAdd {P Q : Pat} {glo : List (Pat × Unit)} :
    (P, ()) ∈ gloAdd Q glo ↔ P = Q ∨ (P, ()) ∈ glo := by
  unfold gloAdd
  by_cases h : (Q, ()) ∈ glo
  · rw [if_pos h]
    constructor
    · exact Or.inr
    · rintro (rfl | hm)
      · exact h
      · exact hm
  · rw [if_neg h]
    simp [List.mem_append]
    tauto

theorem mem_gloRemove {P Q : Pat} {glo : List (Pat × Unit)} :
    (P, ()) ∈ gloRemove Q glo ↔ P ≠ Q ∧ (P, ()) ∈ glo := by
  unfold gloRemove
  simp [List.mem_filter]
  tauto

theorem canonicalSeg_inj {a b : Str} (ha : canonicalSeg a) (hb : canonicalSeg b)
    (h : parseChars a = parseChars b) : a = b := by
  rw [← ha, ← hb, h]

/-! ## The directory invariant (C1, amended part) -/

theorem WInv_init : WInv init := by
  refine ⟨by simp [init], by simp [init], ?_⟩
  intro P
  simp only [init, List.not_mem_nil, false_iff]
  rintro ⟨seg, hosts, hfind, -, -⟩
  simp [assocFind] at hfind

theorem WInv_upd_add (s : MState) (pat : Str) (nh : List (Str × String)) (hne : nh ≠ [])
    (hcanon : canonicalSeg pat) (hI : WInv s) :
    WInv ⟨assocUpd pat nh s.patterns, gloAdd (parseChars pat) s.gloBloom,
      s.sockets, s.requests⟩ := by
  obtain ⟨hnd, hclean, hiff⟩ := hI
  refine ⟨nodup_assocUpd hnd, ?_, ?_⟩
  · intro e he
    rcases mem_assocUpd pat nh s.patterns e he with rfl | he2
    · exact hcanon
    · exact hclean e he2
  · intro P
    rw [show (⟨assocUpd pat nh s.patterns, gloAdd (parseChars pat) s.gloBloom,
        s.sockets, s.requests⟩ : MState).gloBloom = gloAdd (parseChars pat) s.gloBloom from rfl,
      mem_gloAdd]
    constructor
    · rintro (rfl | hP)
      · exact ⟨pat, nh, assocFind_assocUpd_self pat nh s.patterns, hne, rfl⟩
      · obtain ⟨seg, hosts, hfind, hnh2, hparse⟩ := (hiff P).mp hP
        by_cases hsp : seg = pat
        · exact ⟨pat, nh, assocFind_assocUpd_self pat nh s.patterns, hne,
            by rw [← hsp]; exact hparse⟩
        · exact ⟨seg, hosts,
            by rw [assocFind_assocUpd_ne hsp nh s.patterns]; exact hfind, hnh2, hparse⟩
    · rintro ⟨seg, hosts, hfind, hnh2, hparse⟩
      by_cases hsp : seg = pat
      · left; rw [← hparse, hsp]
      · right
        rw [assocFind_assocUpd_ne hsp nh s.patterns] at hfind
        exact (hiff P).mpr ⟨seg, hosts, hfind, hnh2, hparse⟩

theorem WInv_upd_keep (s : MState) (pat : Str) (oldh nh : List (Str × String))
    (hf : assocFind pat s.patterns = some oldh) (hone : oldh ≠ []) (hne : nh ≠ [])
    (hI : WInv s) :
    WInv ⟨assocUpd pat nh s.patterns, s.gloBloom, s.sockets, s.requests⟩ := by
  obtain ⟨hnd, hclean, hiff⟩ := hI
  have hcanon : canonicalSeg pat := hclean _ (assocFind_some_mem hf)
  refine ⟨nodup_assocUpd hnd, ?_, ?_⟩
  · intro e he
    rcases mem_assocUpd pat nh s.patterns e he with rfl | he2
    · exact hcanon
    · exact hclean e he2
  · intro P
    rw [show (⟨assocUpd pat nh s.patterns, s.gloBloom, s.sockets, s.requests⟩ :
        MState).gloBloom = s.gloBloom from rfl, hiff P]
    constructor
    · rintro ⟨seg, hosts, hfind, hnh2, hparse⟩
      by_cases hsp : seg = pat
      · exact ⟨pat, nh, assocFind_assocUpd_self pat nh s.patterns, hne,
          by rw [← hsp]; exact hparse⟩
      · exact ⟨seg, hosts,
          by rw [assocFind_assocUpd_ne hsp nh s.patterns]; exact hfind, hnh2, hparse⟩
    · rintro ⟨seg, hosts, hfind, hnh2, hparse⟩
      by_cases hsp : seg = pat
      · exact ⟨pat, oldh, hf, hone, by rw [← hsp]; exact hparse⟩
      · rw [assocFind_assocUpd_ne hsp nh s.patterns] at hfind
        exact ⟨seg, hosts, hfind, hnh2, hparse⟩

theorem WInv_upd_remove (s : MState) (pat : Str) (hcanon : canonicalSeg pat) (hI : WInv s) :
    WInv ⟨assocUpd pat [] s.patterns, gloRemove (parseChars pat) s.gloBloom,
      s.sockets, s.requests⟩ := by
  obtain ⟨hnd, hclean, hiff⟩ := hI
  refine ⟨nodup_assocUpd hnd, ?_, ?_⟩
  · intro e he
    rcases mem_assocUpd pat [] s.patterns e he with rfl | he2
    · exact hcanon
    · exact hclean e he2
  · intro P
    rw [show (⟨assocUpd pat [] s.patterns, gloRemove (parseChars pat) s.gloBloom,
        s.sockets, s.requests⟩ : MState).gloBloom = gloRemove (parseChars pat) s.gloBloom
        from rfl, mem_gloRemove]
    constructor
    · rintro ⟨hPne, hP⟩
      obtain ⟨seg, hosts, hfind, hnh2, hparse⟩ := (hiff P).mp hP
      have hsp : seg ≠ pat := fun hh => hPne (by rw [← hparse, hh])
      exact ⟨seg, hosts,
        by rw [assocFind_assocUpd_ne hsp ([] : List (Str × String)) s.patterns]; exact hfind,
        hnh2, hparse⟩
    · rintro ⟨seg, hosts, hfind, hnh2, hparse⟩
      by_cases hsp : seg = pat
      · rw [hsp, assocFind_assocUpd_self pat ([] : List (Str × String)) s.patterns] at hfind
        exact absurd (Option.some.inj hfind).symm hnh2
      · rw [assocFind_assocUpd_ne hsp ([] : List (Str × String)) s.patterns] at hfind
        have hseg_canon : canonicalSeg seg := hclean _ (assocFind_some_mem hfind)
        refine ⟨?_, (hiff P).mpr ⟨seg, hosts, hfind, hnh2, hparse⟩⟩
        intro hPQ
        exact hsp (canonicalSeg_inj hseg_canon hcanon (by rw [hparse, hPQ]))

theorem assocHas_ne_nil {κ β : Type} [DecidableEq κ] {k : κ} {l : List (κ × β)}
    (h : assocHas k l = true) : l ≠ [] := by
  intro hl
  rw [hl] at h
  simp [assocHas, assocFind] at h

/-- One watch event preserves the directory invariant, provided the
event's key (when it decomposes at all) carries a canonical pattern
segment. -/
theorem watchStep_WInv (s : MState) (e : WEvent) (hI : WInv s)
    (hc : canonKey e.key = true) : WInv (watchStep s e).1 := by
  cases hx : keydxExec e.key with
  | none => simpa [watchStep, hx] using hI
  | some pr =>
    obtain ⟨pat, host⟩ := pr
    have hcanon : canonicalSeg pat := by
      rw [canonKey, hx] at hc
      exact of_decide_eq_true hc
    cases ha : e.action with
    | other => simpa [watchStep, hx, ha] using hI
    | set =>
      cases hf : assocFind pat s.patterns with
      | some hosts =>
        cases hh : assocHas host hosts with
        | true => simpa [watchStep, hx, ha, hf, hh] using hI
        | false =>
          have hstep : (watchStep s e).1 =
              ⟨assocUpd pat (hosts ++ [(host, e.value)]) s.patterns,
                gloAdd (parseChars pat) s.gloBloom, s.sockets, s.requests⟩ := by
            simp [watchStep, hx, ha, hf, hh]
          rw [hstep]
          exact WInv_upd_add s pat _ (by simp) hcanon hI
      | none =>
        have hstep : (watchStep s e).1 =
            ⟨assocUpd pat [(host, e.value)] s.patterns,
              gloAdd (parseChars pat) s.gloBloom, s.sockets, s.requests⟩ := by
          simp [watchStep, hx, ha, hf]
        rw [hstep]
        exact WInv_upd_add s pat _ (by simp) hcanon hI
    | delete =>
      cases hf : assocFind pat s.patterns with
      | none => simpa [watchStep, hx, ha, hf] using hI
      | some hosts =>
        cases hh : assocHas host hosts with
        | false => simpa [watchStep, hx, ha, hf, hh] using hI
        | true =>
          cases hemp : (assocEraseAll host hosts).isEmpty with
          | true =>
            have hnil : assocEraseAll host hosts = [] := (List.isEmpty_iff).mp hemp
            have hstep : (watchStep s e).1 =
                ⟨assocUpd pat [] s.patterns,
                  gloRemove (parseChars pat) s.gloBloom, s.sockets, s.requests⟩ := by
              simp [watchStep, hx, ha, hf, hh, hemp, hnil]
            rw [hstep]
            exact WInv_upd_remove s pat hcanon hI
          | false =>
            have hone : hosts ≠ [] := assocHas_ne_nil hh
            have hnn : assocEraseAll host hosts ≠ [] := by
              intro hq
              rw [hq] at hemp
              simp at hemp
            have hstep : (watchStep s e).1 =
                ⟨assocUpd pat (assocEraseAll host hosts) s.patterns,
                  s.gloBloom, s.sockets, s.requests⟩ := by
              simp [watchStep, hx, ha, hf, hh, hemp]
            rw [hstep]
            exact WInv_upd_keep s pat hosts _ hf hone hnn hI
    | expire =>
      cases hf : assocFind pat s.patterns with
      | none => simpa [watchStep, hx, ha, hf] using hI
      | some hosts =>
        cases hh : assocHas host hosts with
        | false => simpa [watchStep, hx, ha, hf, hh] using hI
        | true =>
          cases hemp : (assocEraseAll host hosts).isEmpty with
          | true =>
            have hnil : assocEraseAll host hosts = [] := (List.isEmpty_iff).mp hemp
            have hstep : (watchStep s e).1 =
                ⟨assocUpd pat [] s.patterns,
                  gloRemove (parseChars pat) s.gloBloom, s.sockets, s.requests⟩ := by
              simp [watchStep, hx, ha, hf, hh, hemp, hnil]
            rw [hstep]
            exact WInv_upd_remove s pat hcanon hI
          | false =>
            have hone : hosts ≠ [] := assocHas_ne_nil hh
            have hnn : assocEraseAll host hosts ≠ [] := by
              intro hq
              rw [hq] at hemp
              simp at hemp
            have hstep : (watchStep s e).1 =
                ⟨assocUpd pat (assocEraseAll host hosts) s.patterns,
                  s.gloBloom, s.sockets, s.requests⟩ := by
              simp [watchStep, hx, ha, hf, hh, hemp]
            rw [hstep]
            exact WInv_upd_keep s pat hosts _ hf hone hnn hI

/-- The invariant holds along any fold of canonical-key events. -/
theorem runWatch_foldl_WInv :
    ∀ (evs : List WEvent) (s : MState), WInv s →
      (∀ e ∈ evs, canonKey e.key = true) →
      WInv (evs.foldl (fun s2 e => (watchStep s2 e).1) s) := by
  intro evs
  induction evs with
  | nil => intro s hI _; exact hI
  | cons e rest ih =>
    intro s hI hcc
    exact ih ((watchStep s e).1)
      (watchStep_WInv s e hI (hcc e (List.mem_cons_self _ _)))
      (fun x hx => hcc x (List.mem_cons_of_mem _ hx))

/-- Claim C1 (amended): over any watch-event sequence whose keys carry
canonical pattern segments (as the segments this program publishes are —
`instance.on` stores `sonic.stringify` output — making distinct segments
denote distinct patterns), a pattern is present in the global index iff
some segment parsing to it has at least one live host; in particular any
pattern the global index matches a message to has a live host.  The first
`set` event for a pattern adds it, and the `delete`/`expire` removing its
last host removes it (the callback then throws at `patterns.delete`,
after both mutations). -/
theorem watch_index_invariant (evs : List WEvent)
    (hc : ∀ e ∈ evs, canonKey e.key = true) :
    (∀ P : Pat, ((P, ()) ∈ (runWatch evs).gloBloom ↔
      ∃ seg hosts, assocFind seg (runWatch evs).patterns = some hosts ∧ hosts ≠ [] ∧
        parseChars seg = P)) ∧
    (∀ (m : Msg) (P : Pat), gloLookup (runWatch evs).gloBloom m = some P →
      ∃ seg hosts, assocFind seg (runWatch evs).patterns = some hosts ∧ hosts ≠ [] ∧
        parseChars seg = P) := by
  have hrun : WInv (runWatch evs) := runWatch_foldl_WInv evs init WInv_init hc
  refine ⟨fun P => hrun.2.2 P, ?_⟩
  intro m P hlk
  exact (hrun.2.2 P).mp (gloLookup_mem hlk).1

/-- Witness for C1 (amended): a canonical segment announced and then
fully withdrawn; its pattern is absent from the global index exactly
because no nonempty host map remains for it. -/
theorem watch_index_invariant_witness :
    (∀ e ∈ [(⟨WAction.set, "/services/a:1,b:2/h1".toList, "tcp://h1:1"⟩ : WEvent),
            ⟨WAction.delete, "/services/a:1,b:2/h1".toList, ""⟩],
      canonKey e.key = true) ∧
    ((parseChars ("a:1,b:2".toList), ()) ∈
        (runWatch [⟨WAction.set, "/services/a:1,b:2/h1".toList, "tcp://h1:1"⟩,
                   ⟨WAction.delete, "/services/a:1,b:2/h1".toList, ""⟩]).gloBloom ↔
      ∃ seg hosts,
        assocFind seg
            (runWatch [⟨WAction.set, "/services/a:1,b:2/h1".toList, "tcp://h1:1"⟩,
                       ⟨WAction.delete, "/services/a:1,b:2/h1".toList, ""⟩]).patterns =
          some hosts ∧
        hosts ≠ [] ∧ parseChars seg = parseChars ("a:1,b:2".toList)) :=
  ⟨by decide,
    (watch_index_invariant
      [⟨WAction.set, "/services/a:1,b:2/h1".toList, "tcp://h1:1"⟩,
       ⟨WAction.delete, "/services/a:1,b:2/h1".toList, ""⟩] (by decide)).1
      (parseChars ("a:1,b:2".toList))⟩

/-! ## Claim C2: request-table machinery -/

theorem map_filter_comm {α β : Type} (f : α → β) (p : β → Bool) :
    ∀ (l : List α), (l.filter (fun a => p (f a))).map f = (l.map f).filter p := by
  intro l
  induction l with
  | nil => rfl
  | cons a rest ih =>
    cases hp : p (f a) with
    | true => simp [hp, ih]
    | false => simp [hp, ih]

theorem sendIdsOf_append :
    ∀ (l1 l2 : List REv), sendIdsOf (l1 ++ l2) = sendIdsOf l1 ++ sendIdsOf l2 := by
  intro l1 l2
  induction l1 with
  | nil => rfl
  | cons e rest ih =>
    cases e with
    | sendReq id t => simp [sendIdsOf, ih]
    | reply meta msg => simp [sendIdsOf, ih]
    | sweep t => simp [sendIdsOf, ih]

theorem mem_sendIdsOf {id : String} {t : Nat} :
    ∀ {l : List REv}, REv.sendReq id t ∈ l → id ∈ sendIdsOf l := by
  intro l
  induction l with
  | nil => intro h; exact absurd h (List.not_mem_nil _)
  | cons e rest ih =>
    intro h
    cases e with
    | sendReq id2 t2 =>
      rcases List.mem_cons.mp h with h2 | h2
      · have hid : id = id2 := by injection h2
        rw [hid]
        exact List.mem_cons_self _ _
      · exact List.mem_cons_of_mem _ (ih h2)
    | reply meta msg =>
      rcases List.mem_cons.mp h with h2 | h2
      · exact absurd h2 (by simp)
      · exact ih h2
    | sweep t2 =>
      rcases List.mem_cons.mp h with h2 | h2
      · exact absurd h2 (by simp)
      · exact ih h2

/-- Every run of the reply branch either leaves the state untouched or
settles exactly the looked-up id, removing its entry. -/
theorem handleReply_cases (tbl : List (String × Nat)) (meta : Meta) (msg : Msg) :
    handleReply tbl meta msg = (tbl, []) ∨
    ∃ rid st0, meta.requestId = some rid ∧ (assocFind rid tbl).isSome = true ∧
      handleReply tbl meta msg = (assocEraseAll rid tbl, [st0]) ∧ settleId st0 = rid := by
  cases hr : meta.requestId with
  | none => exact Or.inl (by simp [handleReply, hr])
  | some rid =>
    by_cases he : rid.isEmpty
    · exact Or.inl (by simp [handleReply, hr, he])
    · cases hf : assocFind rid tbl with
      | none => exact Or.inl (by simp [handleReply, hr, he, hf])
      | some v =>
        cases herr : meta.error with
        | none =>
          exact Or.inr ⟨rid, Settlement.resolved rid msg, rfl, by simp [hf],
            by simp [handleReply, hr, he, hf, herr], rfl⟩
        | some ev =>
          cases ht : truthy ev with
          | true =>
            exact Or.inr ⟨rid, Settlement.rejectedErr rid ev, rfl, by simp [hf],
              by simp [handleReply, hr, he, hf, herr, ht], rfl⟩
          | false =>
            exact Or.inr ⟨rid, Settlement.resolved rid msg, rfl, by simp [hf],
              by simp [handleReply, hr, he, hf, herr, ht], rfl⟩

theorem assocFind_isSome_mem_keys {κ β : Type} [DecidableEq κ] {k : κ}
    {l : List (κ × β)} (h : (assocFind k l).isSome = true) : k ∈ l.map Prod.fst := by
  obtain ⟨v, hv⟩ := Option.isSome_iff_exists.mp h
  exact List.mem_map.mpr ⟨(k, v), assocFind_some_mem hv, rfl⟩

theorem rStep_send {allowed : List String} {st : List (String × Nat) × List Settlement}
    (hI : RInv allowed st) {id : String} (hid : id ∉ allowed) (t : Nat) :
    RInv (allowed ++ [id]) (rStep st (REv.sendReq id t)) := by
  obtain ⟨c1, c2, c3, c4, c5⟩ := hI
  obtain ⟨tbl, log⟩ := st
  dsimp only at c1 c2 c3 c4 c5
  refine ⟨?_, ?_, ?_, ?_, c5⟩
  · intro i hi
    simp only [rStep, List.map_append, List.map_cons, List.map_nil] at hi
    rcases List.mem_append.mp hi with hi | hi
    · exact List.mem_append_left _ (c1 i hi)
    · simp at hi
      simp [hi]
  · simp only [rStep, List.map_append, List.map_cons, List.map_nil]
    rw [List.nodup_append]
    refine ⟨c2, List.nodup_singleton id, ?_⟩
    intro i hi hi2
    simp at hi2
    exact hid (hi2 ▸ c1 i hi)
  · intro i hi
    exact List.mem_append_left _ (c3 i hi)
  · intro i hi
    simp only [rStep, List.map_append, List.map_cons, List.map_nil] at hi
    rcases List.mem_append.mp hi with hi | hi
    · exact c4 i hi
    · simp at hi
      apply List.count_eq_zero.mpr
      intro hmem
      exact hid (hi ▸ c3 i hmem)

theorem rStep_reply {allowed : List String} {st : List (String × Nat) × List Settlement}
    (hI : RInv allowed st) (meta : Meta) (msg : Msg) :
    RInv allowed (rStep st (REv.reply meta msg)) := by
  obtain ⟨c1, c2, c3, c4, c5⟩ := hI
  obtain ⟨tbl, log⟩ := st
  dsimp only at c1 c2 c3 c4 c5
  rcases handleReply_cases tbl meta msg with hc | ⟨rid, st0, hrid, hsome, hc, hsid⟩
  · simpa [rStep, hc] using ⟨c1, c2, c3, c4, c5⟩
  · have hmem : rid ∈ tbl.map Prod.fst := assocFind_isSome_mem_keys hsome
    have hkeys : (assocEraseAll rid tbl).map Prod.fst =
        (tbl.map Prod.fst).filter (fun i => !(decide (i = rid))) :=
      map_filter_comm Prod.fst (fun i => !(decide (i = rid))) tbl
    refine ⟨?_, ?_, ?_, ?_, ?_⟩
    · intro i hi
      simp only [rStep, hc] at hi
      rw [hkeys] at hi
      exact c1 i (List.mem_of_mem_filter hi)
    · simp only [rStep, hc]
      rw [hkeys]
      exact c2.filter _
    · intro i hi
      simp only [rStep, hc, List.map_append, List.map_cons, List.map_nil, hsid] at hi
      rcases List.mem_append.mp hi with hi | hi
      · exact c3 i hi
      · simp at hi
        exact hi ▸ c1 rid hmem
    · intro i hi
      simp only [rStep, hc] at hi ⊢
      rw [hkeys] at hi
      have hine : ¬ i = rid := by
        have := List.of_mem_filter hi
        simpa using this
      rw [List.map_append, List.count_append]
      have h0 : (log.map settleId).count i = 0 := c4 i (List.mem_of_mem_filter hi)
      rw [h0]
      simp [hsid, hine]
    · intro i
      simp only [rStep, hc]
      rw [List.map_append, List.count_append]
      by_cases hir : i = rid
      · have h0 : (log.map settleId).count i = 0 := hir ▸ c4 rid hmem
        rw [h0]
        simp [hsid, hir]
      · have : ([st0].map settleId).count i = 0 := by
          rw [List.map_cons, List.map_nil, hsid]
          apply List.count_eq_zero.mpr
          simp [hir]
        rw [this]
        simpa using c5 i

theorem rStep_sweep {allowed : List String} {st : List (String × Nat) × List Settlement}
    (hI : RInv allowed st) (now : Nat) :
    RInv allowed (rStep st (REv.sweep now)) := by
  obtain ⟨c1, c2, c3, c4, c5⟩ := hI
  obtain ⟨tbl, log⟩ := st
  dsimp only at c1 c2 c3 c4 c5
  have hkept : (tbl.filter (fun e => !(decide (e.2 < now)))).map Prod.fst |>.Sublist
      (tbl.map Prod.fst) := (List.filter_sublist tbl).map Prod.fst
  have hexp : (tbl.filter (fun e => decide (e.2 < now))).map Prod.fst |>.Sublist
      (tbl.map Prod.fst) := (List.filter_sublist tbl).map Prod.fst
  have hperm : ((tbl.filter (fun e => decide (e.2 < now))).map Prod.fst ++
      (tbl.filter (fun e => !(decide (e.2 < now)))).map Prod.fst).Perm
      (tbl.map Prod.fst) := by
    rw [← List.map_append]
    exact (List.filter_append_perm (fun e => decide (e.2 < now)) tbl).map Prod.fst
  have hdisj : ∀ i ∈ (tbl.filter (fun e => !(decide (e.2 < now)))).map Prod.fst,
      i ∉ (tbl.filter (fun e => decide (e.2 < now))).map Prod.fst := by
    intro i hiK hiE
    have hcnt : ((tbl.filter (fun e => decide (e.2 < now))).map Prod.fst ++
        (tbl.filter (fun e => !(decide (e.2 < now)))).map Prod.fst).count i =
        (tbl.map Prod.fst).count i := hperm.count_eq i
    have hle : (tbl.map Prod.fst).count i ≤ 1 := List.nodup_iff_count_le_one.mp c2 i
    rw [List.count_append] at hcnt
    have hE : 0 < ((tbl.filter (fun e => decide (e.2 < now))).map Prod.fst).count i :=
      List.count_pos_iff.mpr hiE
    have hK : 0 < ((tbl.filter (fun e => !(decide (e.2 < now)))).map Prod.fst).count i :=
      List.count_pos_iff.mpr hiK
    omega
  have hsetid : ((tbl.filter (fun e => decide (e.2 < now))).map
      (fun e => Settlement.timedOut e.1)).map settleId =
      (tbl.filter (fun e => decide (e.2 < now))).map Prod.fst := by
    rw [List.map_map]
    rfl
  refine ⟨?_, ?_, ?_, ?_, ?_⟩
  · intro i hi
    simp only [rStep, fireRequestTimeouts] at hi
    exact c1 i (hkept.subset hi)
  · simp only [rStep, fireRequestTimeouts]
    exact c2.sublist hkept
  · intro i hi
    simp only [rStep, fireRequestTimeouts, List.map_append, hsetid] at hi
    rcases List.mem_append.mp hi with hi | hi
    · exact c3 i hi
    · exact c1 i (hexp.subset hi)
  · intro i hi
    simp only [rStep, fireRequestTimeouts] at hi ⊢
    rw [List.map_append, List.count_append, hsetid]
    have h0 : (log.map settleId).count i = 0 := c4 i (hkept.subset hi)
    have h0e : ((tbl.filter (fun e => decide (e.2 < now))).map Prod.fst).count i = 0 :=
      List.count_eq_zero.mpr (hdisj i hi)
    rw [h0, h0e]
  · intro i
    simp only [rStep, fireRequestTimeouts]
    rw [List.map_append, List.count_append, hsetid]
    by_cases him : i ∈ tbl.map Prod.fst
    · have h0 : (log.map settleId).count i = 0 := c4 i him
      have hle : ((tbl.filter (fun e => decide (e.2 < now))).map Prod.fst).count i ≤ 1 :=
        List.nodup_iff_count_le_one.mp (c2.sublist hexp) i
      omega
    · have h0e : ((tbl.filter (fun e => decide (e.2 < now))).map Prod.fst).count i = 0 :=
        List.count_eq_zero.mpr (fun hh => him (hexp.subset hh))
      have := c5 i
      omega

theorem rRun_RInv :
    ∀ (evs : List REv) (st : List (String × Nat) × List Settlement) (allowed : List String),
      RInv allowed st → (allowed ++ sendIdsOf evs).Nodup →
      RInv (allowed ++ sendIdsOf evs) (evs.foldl rStep st) := by
  intro evs
  induction evs with
  | nil =>
    intro st allowed hI _
    simpa [sendIdsOf] using hI
  | cons e rest ih =>
    intro st allowed hI hnd
    cases e with
    | sendReq id t =>
      have hshape : sendIdsOf (REv.sendReq id t :: rest) = id :: sendIdsOf rest := rfl
      rw [hshape] at hnd ⊢
      have hid : id ∉ allowed := by
        rw [List.nodup_append] at hnd
        intro hmem
        exact hnd.2.2 hmem (List.mem_cons_self _ _)
      have heq : allowed ++ id :: sendIdsOf rest = (allowed ++ [id]) ++ sendIdsOf rest := by
        simp
      rw [heq] at hnd ⊢
      exact ih (rStep st (REv.sendReq id t)) (allowed ++ [id]) (rStep_send hI hid t) hnd
    | reply meta msg =>
      exact ih (rStep st (REv.reply meta msg)) allowed (rStep_reply hI meta msg) hnd
    | sweep t =>
      exact ih (rStep st (REv.sweep t)) allowed (rStep_sweep hI t) hnd

theorem rRun_safety (evs : List REv) (hnd : (sendIdsOf evs).Nodup) :
    RInv (sendIdsOf evs) (rRun evs) := by
  have h0 : RInv [] ([], []) := by
    refine ⟨?_, ?_, ?_, ?_, ?_⟩ <;> simp
  have hres := rRun_RInv evs ([], []) [] h0 (by simpa using hnd)
  simpa using hres

theorem rRun_log_mono (s0 : Settlement) :
    ∀ (evs : List REv) (st : List (String × Nat) × List Settlement),
      s0 ∈ st.2 → s0 ∈ (evs.foldl rStep st).2 := by
  intro evs
  induction evs with
  | nil => intro st h; exact h
  | cons e rest ih =>
    intro st h
    apply ih
    obtain ⟨tbl, log⟩ := st
    cases e with
    | sendReq id t => exact h
    | reply meta msg => exact List.mem_append_left _ h
    | sweep t => exact List.mem_append_left _ h

/-- A pending entry survives any events that neither reply to its id nor
re-send it, unless a sweep has already timed it out (its settlement then
stays in the log forever). -/
theorem request_persists {id : String} {exp : Nat} :
    ∀ (l2 : List REv) (st : List (String × Nat) × List Settlement),
      (id, exp) ∈ st.1 →
      (∀ meta msg, REv.reply meta msg ∈ l2 → meta.requestId ≠ some id) →
      (∀ t, REv.sendReq id t ∉ l2) →
      ((id, exp) ∈ (l2.foldl rStep st).1 ∨
        Settlement.timedOut id ∈ (l2.foldl rStep st).2) := by
  intro l2
  induction l2 with
  | nil => intro st h _ _; exact Or.inl h
  | cons e rest ih =>
    intro st h hrep hsend
    obtain ⟨tbl, log⟩ := st
    cases e with
    | sendReq id2 t =>
      exact ih _ (List.mem_append_left _ h)
        (fun m2 ms hm => hrep m2 ms (List.mem_cons_of_mem _ hm))
        (fun t2 hm => hsend t2 (List.mem_cons_of_mem _ hm))
    | reply meta msg =>
      have hne : meta.requestId ≠ some id := hrep meta msg (List.mem_cons_self _ _)
      rcases handleReply_cases tbl meta msg with hc | ⟨rid, st0, hrid, -, hc, -⟩
      · refine ih _ ?_ (fun m2 ms hm => hrep m2 ms (List.mem_cons_of_mem _ hm))
          (fun t2 hm => hsend t2 (List.mem_cons_of_mem _ hm))
        show (id, exp) ∈ (rStep (tbl, log) (REv.reply meta msg)).1
        simp only [rStep, hc]
        exact h
      · have hridne : ¬ (id = rid) := fun hh => hne (hh ▸ hrid)
        refine ih _ ?_ (fun m2 ms hm => hrep m2 ms (List.mem_cons_of_mem _ hm))
          (fun t2 hm => hsend t2 (List.mem_cons_of_mem _ hm))
        show (id, exp) ∈ (rStep (tbl, log) (REv.reply meta msg)).1
        simp only [rStep, hc]
        exact List.mem_filter.mpr ⟨h, by simp [hridne]⟩
    | sweep t =>
      by_cases hlt : exp < t
      · right
        apply rRun_log_mono _ rest
        show Settlement.timedOut id ∈ (rStep (tbl, log) (REv.sweep t)).2
        simp only [rStep, fireRequestTimeouts]
        apply List.mem_append_right
        apply List.mem_map.mpr
        exact ⟨(id, exp), List.mem_filter.mpr ⟨h, by simp [hlt]⟩, rfl⟩
      · refine ih _ ?_ (fun m2 ms hm => hrep m2 ms (List.mem_cons_of_mem _ hm))
          (fun t2 hm => hsend t2 (List.mem_cons_of_mem _ hm))
        show (id, exp) ∈ (rStep (tbl, log) (REv.sweep t)).1
        simp only [rStep, fireRequestTimeouts]
        exact List.mem_filter.mpr ⟨h, by simp [hlt]⟩

theorem settle_filter_count (id : String) (log : List Settlement) :
    (log.filter (fun s0 => settleId s0 == id)).length = (log.map settleId).count id := by
  rw [← List.countP_eq_length_filter, List.count, List.countP_map]
  rfl

theorem unique_timeout_of_mem {log : List Settlement} {id : String}
    (hmem : Settlement.timedOut id ∈ log)
    (hle : (log.map settleId).count id ≤ 1) :
    log.filter (fun s0 => settleId s0 == id) = [Settlement.timedOut id] := by
  have hmf : Settlement.timedOut id ∈ log.filter (fun s0 => settleId s0 == id) :=
    List.mem_filter.mpr ⟨hmem, by simp [settleId]⟩
  have hlen : (log.filter (fun s0 => settleId s0 == id)).length = 1 := by
    have h1 : 0 < (log.filter (fun s0 => settleId s0 == id)).length :=
      List.length_pos_of_mem hmf
    have h2 := settle_filter_count id log
    omega
  obtain ⟨a, ha⟩ := List.length_eq_one.mp hlen
  rw [ha] at hmf ⊢
  have haa : Settlement.timedOut id = a := by simpa using hmf
  rw [← haa]

theorem sweepSchedule_add (start a b : Nat) :
    sweepSchedule start (a + b) = sweepSchedule start a ++
      (List.range b).map (fun k => REv.sweep (start + 25 * (a + k + 1))) := by
  rw [sweepSchedule, sweepSchedule, List.range_add, List.map_append, List.map_map]
  congr 1

/-- Claim C2: with globally unique send ids (the `genId` invariant), every
pending request is settled at most once over any event interleaving, an id
still pending has no settlement, and a request that receives no reply
before a sweep past its `now + 5000` expiry is settled exactly once, with
a timeout, by that sweep — a later reply can never settle it again.  The
last clause instantiates the sweeps with the self-rescheduling 25 ms
cadence of `fireRequestTimeouts`: any schedule of at least 201 sweeps
started no earlier than the send reaches past the 5000 ms deadline. -/
theorem request_settled_exactly_once (evs : List REv)
    (hnd : (sendIdsOf evs).Nodup) :
    (∀ id : String, ((rRun evs).2.map settleId).count id ≤ 1) ∧
    (∀ id ∈ (rRun evs).1.map Prod.fst,
      (rRun evs).2.filter (fun s0 => settleId s0 == id) = []) ∧
    (∀ (l1 : List REv) (id : String) (t0 : Nat) (l2 : List REv) (now : Nat) (l3 : List REv),
      evs = l1 ++ REv.sendReq id t0 :: l2 ++ REv.sweep now :: l3 →
      t0 + 5000 < now →
      (∀ meta msg, REv.reply meta msg ∈ l1 ++ l2 → meta.requestId ≠ some id) →
      (rRun evs).2.filter (fun s0 => settleId s0 == id) = [Settlement.timedOut id]) ∧
    (∀ (l1 : List REv) (id : String) (t0 start n : Nat),
      evs = l1 ++ REv.sendReq id t0 :: sweepSchedule start n →
      t0 ≤ start → 201 ≤ n →
      (∀ meta msg, REv.reply meta msg ∈ l1 → meta.requestId ≠ some id) →
      (rRun evs).2.filter (fun s0 => settleId s0 == id) = [Settlement.timedOut id]) := by
  obtain ⟨c1, c2, c3, c4, c5⟩ := rRun_safety evs hnd
  have part1 : ∀ id : String, ((rRun evs).2.map settleId).count id ≤ 1 := c5
  have part2 : ∀ id ∈ (rRun evs).1.map Prod.fst,
      (rRun evs).2.filter (fun s0 => settleId s0 == id) = [] := by
    intro id hid
    have h0 := c4 id hid
    have hlen := settle_filter_count id (rRun evs).2
    rw [h0] at hlen
    exact List.length_eq_zero.mp hlen
  have part3 : ∀ (l1 : List REv) (id : String) (t0 : Nat) (l2 : List REv) (now : Nat)
      (l3 : List REv),
      evs = l1 ++ REv.sendReq id t0 :: l2 ++ REv.sweep now :: l3 →
      t0 + 5000 < now →
      (∀ meta msg, REv.reply meta msg ∈ l1 ++ l2 → meta.requestId ≠ some id) →
      (rRun evs).2.filter (fun s0 => settleId s0 == id) = [Settlement.timedOut id] := by
    intro l1 id t0 l2 now l3 hsh hdead hnorep
    have hnod := hnd
    rw [hsh, sendIdsOf_append, sendIdsOf_append] at hnod
    have hshape2 : sendIdsOf (REv.sendReq id t0 :: l2) = id :: sendIdsOf l2 := rfl
    rw [hshape2] at hnod
    have hid_not_l2 : ∀ t2, REv.sendReq id t2 ∉ l2 := by
      intro t2 hmem
      have hin2 : id ∈ sendIdsOf l2 := mem_sendIdsOf hmem
      have hsub : (id :: sendIdsOf l2).Nodup :=
        ((List.nodup_append.mp hnod).1).sublist (List.sublist_append_right _ _)
      exact (List.Nodup.not_mem hsub) hin2
    have hmem : Settlement.timedOut id ∈ (rRun evs).2 := by
      rw [hsh, rRun, List.foldl_append, List.foldl_append, List.foldl_cons, List.foldl_cons]
      rcases hA : List.foldl rStep ([], []) l1 with ⟨tblA, logA⟩
      have hin : (id, t0 + 5000) ∈ (rStep (tblA, logA) (REv.sendReq id t0)).1 := by
        simp [rStep]
      have hpers := request_persists l2 (rStep (tblA, logA) (REv.sendReq id t0)) hin
        (fun meta msg hm => hnorep meta msg (List.mem_append_right _ hm)) hid_not_l2
      rcases hC : List.foldl rStep (rStep (tblA, logA) (REv.sendReq id t0)) l2
        with ⟨tblC, logC⟩
      rw [hC] at hpers
      apply rRun_log_mono _ l3
      rcases hpers with hP | hP
      · show Settlement.timedOut id ∈ (rStep (tblC, logC) (REv.sweep now)).2
        simp only [rStep, fireRequestTimeouts]
        apply List.mem_append_right
        apply List.mem_map.mpr
        refine ⟨(id, t0 + 5000), List.mem_filter.mpr ⟨hP, ?_⟩, rfl⟩
        simp only [decide_eq_true_eq]
        omega
      · show Settlement.timedOut id ∈ (rStep (tblC, logC) (REv.sweep now)).2
        simp only [rStep, fireRequestTimeouts]
        exact List.mem_append_left _ hP
    exact unique_timeout_of_mem hmem (part1 id)
  refine ⟨part1, part2, part3, ?_⟩
  intro l1 id t0 start n hsh hts hn hnorep
  obtain ⟨m, rfl⟩ : ∃ m, n = 201 + m := ⟨n - 201, by omega⟩
  have hdec1 : sweepSchedule start (201 + m) = sweepSchedule start 201 ++
      (List.range m).map (fun k => REv.sweep (start + 25 * (201 + k + 1))) :=
    sweepSchedule_add start 201 m
  have hdec2 : sweepSchedule start 201 = sweepSchedule start 200 ++
      [REv.sweep (start + 25 * 201)] := by
    have h200 := sweepSchedule_add start 200 1
    rw [show (200 : Nat) + 1 = 201 from rfl] at h200
    rw [h200]
    rfl
  have hsh2 : evs = l1 ++ REv.sendReq id t0 :: sweepSchedule start 200 ++
      REv.sweep (start + 25 * 201) ::
      (List.range m).map (fun k => REv.sweep (start + 25 * (201 + k + 1))) := by
    rw [hsh, hdec1, hdec2]
    simp
  apply part3 l1 id t0 (sweepSchedule start 200) (start + 25 * 201)
    ((List.range m).map (fun k => REv.sweep (start + 25 * (201 + k + 1)))) hsh2
    (by omega)
  intro meta msg hm
  rcases List.mem_append.mp hm with hm | hm
  · exact hnorep meta msg hm
  · obtain ⟨k, -, heq⟩ := List.mem_map.mp hm
    exact absurd heq (by simp)

/-- Witness for C2: a single send at time 0 followed by the 25 ms sweep
schedule; the pending request is settled exactly once, by a timeout. -/
theorem request_settled_exactly_once_witness :
    ((sendIdsOf ([] ++ REv.sendReq "r1" 0 :: sweepSchedule 0 201)).Nodup ∧
      (0 : Nat) ≤ 0 ∧ (201 : Nat) ≤ 201) ∧
    (rRun ([] ++ REv.sendReq "r1" 0 :: sweepSchedule 0 201)).2.filter
        (fun s0 => settleId s0 == "r1") = [Settlement.timedOut "r1"] :=
  ⟨⟨by decide, by decide, by decide⟩,
    (request_settled_exactly_once ([] ++ REv.sendReq "r1" 0 :: sweepSchedule 0 201)
        (by decide)).2.2.2 [] "r1" 0 0 201 rfl (by decide) (by decide)
      (fun meta msg hm => absurd hm (List.not_mem_nil _))⟩

end Microbeam
